import Mathlib

/-!
Verification development for the `pig` table-reconciliation tool
(`src/main.go`).  The definitions below are a shallow embedding of the
functions of `main.go`; every definition's doc comment names the Go
function and lines it embeds.  Strings that the Go code manipulates
character by character (key encoding, identifier quoting) are embedded as
`List Char`; fingerprint maps (Go `map[string]string`) are embedded as
association lists with unique keys.  The md5 digest of the JSON row text
is modelled as the serialized row text itself: the spec treats digest
equality as content equality (collisions declared negligible), and the
digest step is deterministic, so the serialization is a faithful stand-in.
-/

namespace Pig

/-- Lookup in an association list, the embedding of a Go `map[string]string`
read `m[k]`.  Returns the value of the first pair whose key is `k`. -/
def lookupKey (m : List (String × String)) (k : String) : Option String :=
  match m with
  | [] => none
  | p :: rest => if p.1 = k then some p.2 else lookupKey rest k

/-- Embedding of the insert-classification loop of `makeTableSame`
(main.go lines 243-250): keys of the source fingerprint map that are
absent from the target fingerprint map. -/
def keysToInsert (S T : List (String × String)) : List String :=
  (S.filter (fun p => (lookupKey T p.1).isNone)).map Prod.fst

/-- Embedding of the upsert-classification loop of `makeTableSame`
(main.go lines 243-250): keys present in both maps whose hashes differ,
or all shared keys when `force` is set. -/
def keysToUpsert (force : Bool) (S T : List (String × String)) : List String :=
  S.filterMap (fun p =>
    match lookupKey T p.1 with
    | none => none
    | some th => if force || p.2 ≠ th then some p.1 else none)

/-- Embedding of the delete-classification loop of `makeTableSame`
(main.go lines 252-257): keys of the target fingerprint map absent from
the source fingerprint map. -/
def keysToDelete (S T : List (String × String)) : List String :=
  (T.filter (fun p => (lookupKey S p.1).isNone)).map Prod.fst

/-- The keys that `makeTableSame`'s classification loop (main.go lines
243-250) leaves untouched: present in both maps, hashes equal, `force`
not set. -/
def unchangedKeys (force : Bool) (S T : List (String × String)) : List String :=
  S.filterMap (fun p =>
    match lookupKey T p.1 with
    | none => none
    | some th => if force || p.2 ≠ th then none else some p.1)

theorem lookupKey_eq_none_iff (m : List (String × String)) (k : String) :
    lookupKey m k = none ↔ ∀ p ∈ m, p.1 ≠ k := by
  induction m with
  | nil => simp [lookupKey]
  | cons p rest ih =>
    by_cases h : p.1 = k <;> simp [lookupKey, h, ih]

theorem lookupKey_isSome_of_mem {m : List (String × String)} {k h : String}
    (hm : (k, h) ∈ m) : (lookupKey m k).isSome := by
  induction m with
  | nil => simp at hm
  | cons p rest ih =>
    rcases List.mem_cons.mp hm with hp | hp
    · simp [lookupKey, ← hp]
    · by_cases hk : p.1 = k <;> simp [lookupKey, hk, ih hp]

theorem lookupKey_eq_of_mem_nodup {m : List (String × String)} {k h : String}
    (hnd : (m.map Prod.fst).Nodup) (hm : (k, h) ∈ m) : lookupKey m k = some h := by
  induction m with
  | nil => simp at hm
  | cons p rest ih =>
    simp only [List.map_cons, List.nodup_cons] at hnd
    rcases List.mem_cons.mp hm with hp | hp
    · simp [lookupKey, ← hp]
    · have hne : p.1 ≠ k := by
        intro hk
        exact hnd.1 (List.mem_map.mpr ⟨(k, h), hp, by simp [hk]⟩)
      simp [lookupKey, hne, ih hnd.2 hp]

theorem mem_keysToInsert {S T : List (String × String)} {k : String} :
    k ∈ keysToInsert S T ↔ (∃ h, (k, h) ∈ S) ∧ lookupKey T k = none := by
  simp only [keysToInsert, List.mem_map, List.mem_filter]
  constructor
  · rintro ⟨p, ⟨hmem, hnone⟩, rfl⟩
    exact ⟨⟨p.2, hmem⟩, Option.isNone_iff_eq_none.mp hnone⟩
  · rintro ⟨⟨h, hmem⟩, hnone⟩
    exact ⟨(k, h), ⟨hmem, by simp [hnone]⟩, rfl⟩

theorem mem_keysToUpsert {force : Bool} {S T : List (String × String)} {k : String} :
    k ∈ keysToUpsert force S T ↔
      ∃ h th, (k, h) ∈ S ∧ lookupKey T k = some th ∧ (force = true ∨ h ≠ th) := by
  simp only [keysToUpsert, List.mem_filterMap]
  constructor
  · rintro ⟨p, hmem, hval⟩
    rcases hlk : lookupKey T p.1 with _ | th
    · rw [hlk] at hval; simp at hval
    · rw [hlk] at hval
      by_cases hcond : force = true ∨ p.2 ≠ th
      · have hpk : p.1 = k := by
          rcases hcond with hf | hne
          · simp [hf] at hval; exact hval
          · simp [hne] at hval; tauto
        refine ⟨p.2, th, ?_, ?_, ?_⟩
        · rw [← hpk]; exact hmem
        · rw [← hpk]; exact hlk
        · rcases hcond with hf | hne
          · exact Or.inl hf
          · exact Or.inr hne
      · push_neg at hcond
        simp [hcond.1, hcond.2] at hval
  · rintro ⟨h, th, hmem, hlk, hcond⟩
    refine ⟨(k, h), hmem, ?_⟩
    rcases hcond with hf | hne
    · simp [hlk, hf]
    · simp [hlk, hne]

theorem mem_keysToDelete {S T : List (String × String)} {k : String} :
    k ∈ keysToDelete S T ↔ (∃ h, (k, h) ∈ T) ∧ lookupKey S k = none := by
  simp only [keysToDelete, List.mem_map, List.mem_filter]
  constructor
  · rintro ⟨p, ⟨hmem, hnone⟩, rfl⟩
    exact ⟨⟨p.2, hmem⟩, Option.isNone_iff_eq_none.mp hnone⟩
  · rintro ⟨⟨h, hmem⟩, hnone⟩
    exact ⟨(k, h), ⟨hmem, by simp [hnone]⟩, rfl⟩

theorem mem_unchangedKeys {force : Bool} {S T : List (String × String)} {k : String} :
    k ∈ unchangedKeys force S T ↔
      ∃ h, (k, h) ∈ S ∧ lookupKey T k = some h ∧ force = false := by
  simp only [unchangedKeys, List.mem_filterMap]
  constructor
  · rintro ⟨p, hmem, hval⟩
    rcases hlk : lookupKey T p.1 with _ | th
    · rw [hlk] at hval; simp at hval
    · rw [hlk] at hval
      by_cases hcond : force = true ∨ p.2 ≠ th
      · rcases hcond with hf | hne
        · simp [hf] at hval
        · simp [hne] at hval
      · push_neg at hcond
        have hval' : p.1 = k := by
          simp [hcond.1, hcond.2] at hval; exact hval
        refine ⟨p.2, ?_, ?_, by simpa using hcond.1⟩
        · rw [← hval']; exact hmem
        · rw [← hval', hlk, hcond.2]
  · rintro ⟨h, hmem, hlk, hforce⟩
    exact ⟨(k, h), hmem, by simp [hlk, hforce]⟩

/-- A database table state for a single-column primary key, as a list of
(primary-key value, row content) pairs with unique keys.  The row content
string stands for the row's full serialized column values. -/
abbrev TableState : Type := List (String × String)

/-- Embedding of the source fingerprint extraction of `makeTableSame`
(main.go lines 113-147): `SELECT pk, md5(row_to_json(t)::text) FROM tbl`.
The md5 digest of the serialized row is modelled as the serialized row
content itself, so the fingerprint map pairs each key with its row
content. -/
def sourceFingerprints (tbl : TableState) : List (String × String) := tbl

/-- Embedding of the target fingerprint extraction of `makeTableSame`
(main.go lines 168-215): the same projection restricted by
`WHERE pk = ANY($1)` where `$1` holds the collected source keys
(single-column primary key, so the first key component is the whole
key). -/
def targetFingerprints (tbl : TableState) (srcKeys : List String) : List (String × String) :=
  tbl.filter (fun r => srcKeys.contains r.1)

/-- Effect on the target table of the upsert statement of `makeTableSame`
(main.go lines 275-282, 307): `INSERT ... ON CONFLICT (pk) DO UPDATE SET`
— update the row in place on key conflict, append it otherwise. -/
def upsertRow (tbl : TableState) (k v : String) : TableState :=
  if (lookupKey tbl k).isSome then
    tbl.map (fun r => if r.1 = k then (k, v) else r)
  else tbl ++ [(k, v)]

/-- Effect on the target table of the delete statement of `makeTableSame`
(main.go lines 313-324): `DELETE FROM tbl WHERE pk = $1`. -/
def deleteRow (tbl : TableState) (k : String) : TableState :=
  tbl.filter (fun r => r.1 ≠ k)

/-- Outcome of a reconciliation run: success or error, each carrying the
durable target table state after the run (after commit or rollback). -/
inductive RunOutcome where
  | ok (final : TableState)
  | err (msg : String) (final : TableState)
  deriving DecidableEq

/-- The durable target table state an outcome carries. -/
def RunOutcome.final : RunOutcome → TableState
  | .ok t => t
  | .err _ t => t

/-- Operations issued to the target connection, in order, used to state
when the run touches the target at all. -/
inductive TargetOp where
  | query
  | beginTx
  | execStmt
  | commit
  | rollback
  deriving DecidableEq

/-- Embedding of the delete loop and transaction finish of `makeTableSame`
(main.go lines 313-342 plus the deferred rollback at lines 228-232):
execute each delete inside the transaction buffer `buf`; a failed
statement (`execOk k = false`) aborts and rolls back to `origTgt`; at the
end, dry-run rolls back unconditionally and otherwise the buffer is
committed. -/
def applyDeletes (execOk : String → Bool) (origTgt : TableState) (dryRun : Bool) :
    List String → TableState → RunOutcome × List TargetOp
  | [], buf =>
    if dryRun then (.ok origTgt, [.rollback]) else (.ok buf, [.commit])
  | k :: dels, buf =>
    if execOk k then
      let r := applyDeletes execOk origTgt dryRun dels (deleteRow buf k)
      (r.1, .execStmt :: r.2)
    else (.err "error deleting row from target" origTgt, [.execStmt, .rollback])

/-- Embedding of the materialize-and-upsert loop of `makeTableSame`
(main.go lines 288-311 plus the deferred rollback at lines 228-232): for
each key, re-read the full row from the source (`MaterializationError` if
it vanished), then execute the upsert inside the transaction buffer; any
failure aborts and rolls back to `origTgt`; afterwards the delete loop
runs. -/
def applyUpserts (execOk : String → Bool) (srcTbl origTgt : TableState) (dryRun : Bool)
    (dels : List String) : List String → TableState → RunOutcome × List TargetOp
  | [], buf => applyDeletes execOk origTgt dryRun dels buf
  | k :: insUps, buf =>
    match lookupKey srcTbl k with
    | none => (.err "error scanning source row data" origTgt, [.rollback])
    | some v =>
      if execOk k then
        let r := applyUpserts execOk srcTbl origTgt dryRun dels insUps (upsertRow buf k v)
        (r.1, .execStmt :: r.2)
      else (.err "error upserting row into target" origTgt, [.execStmt, .rollback])

/-- Embedding of `makeTableSame` (main.go lines 78-345) for a
single-column primary key, parameterized by per-statement success
(`execOk`) to model database-level statement failures: extract the source
fingerprints; return early when there are none (lines 161-166); extract
the target fingerprints restricted to the source keys; classify; then
apply upserts and deletes in one transaction, dry-run always rolling
back. -/
def runSync (execOk : String → Bool) (srcTbl tgtTbl : TableState)
    (dryRun force : Bool) : RunOutcome :=
  let S := sourceFingerprints srcTbl
  if S.isEmpty then .ok tgtTbl
  else
    let srcKeys := S.map Prod.fst
    let T := targetFingerprints tgtTbl srcKeys
    let insUps := keysToInsert S T ++ keysToUpsert force S T
    let dels := keysToDelete S T
    (applyUpserts execOk srcTbl tgtTbl dryRun dels insUps tgtTbl).1

/-- The ordered target-connection operations of a `runSync` run: the
fingerprint query (main.go line 193), `Begin` (line 224), the
`SET CONSTRAINTS ALL DEFERRED` statement (line 234), then the statement
trace of the apply loops. -/
def runSyncOps (execOk : String → Bool) (srcTbl tgtTbl : TableState)
    (dryRun force : Bool) : List TargetOp :=
  let S := sourceFingerprints srcTbl
  if S.isEmpty then []
  else
    let srcKeys := S.map Prod.fst
    let T := targetFingerprints tgtTbl srcKeys
    let insUps := keysToInsert S T ++ keysToUpsert force S T
    let dels := keysToDelete S T
    .query :: .beginTx :: .execStmt ::
      (applyUpserts execOk srcTbl tgtTbl dryRun dels insUps tgtTbl).2

/-- Embedding of the head of `makeTableSame` (main.go lines 81-87)
followed by the rest of the run: the primary-key columns are read from
the source catalog; if the list is empty the run fails with the
no-primary-key error before anything is asked of the target.  Returns the
error (if any), the operations issued to the target, and the final target
state.  The remaining pipeline is the single-column-key instance
`runSync`. -/
def runTableSame (pkCols : List String) (execOk : String → Bool)
    (srcTbl tgtTbl : TableState) (dryRun force : Bool) :
    Option String × List TargetOp × TableState :=
  if pkCols = [] then (some "table has no primary key", [], tgtTbl)
  else
    match runSync execOk srcTbl tgtTbl dryRun force with
    | .ok fin => (none, runSyncOps execOk srcTbl tgtTbl dryRun force, fin)
    | .err m fin => (some m, runSyncOps execOk srcTbl tgtTbl dryRun force, fin)

theorem lookupKey_mem_of_eq_some {m : List (String × String)} {k v : String}
    (h : lookupKey m k = some v) : (k, v) ∈ m := by
  induction m with
  | nil => simp [lookupKey] at h
  | cons p rest ih =>
    by_cases hk : p.1 = k
    · simp only [lookupKey, hk, if_pos] at h
      have hp : p = (k, v) := Prod.ext hk (by injection h)
      rw [← hp]
      exact List.mem_cons_self p rest
    · simp only [lookupKey, hk, if_neg, not_false_iff] at h
      exact List.mem_cons_of_mem _ (ih h)

theorem keysToInsert_empty_target (S : List (String × String)) :
    keysToInsert S [] = S.map Prod.fst := by
  simp [keysToInsert, lookupKey]

theorem keysToDelete_empty_source (T : List (String × String)) :
    keysToDelete [] T = T.map Prod.fst := by
  simp [keysToDelete, lookupKey]

/-- C5: for every pair of fingerprint mappings (with unique keys, as Go
maps guarantee) and every force flag, the computed ToInsert, ToUpsert and
ToDelete sets are pairwise disjoint (also from the unchanged keys), and
together with the unchanged keys they cover exactly keys(S) ∪ keys(T). -/
theorem diff_classification_partition (force : Bool) (S T : List (String × String))
    (hS : (S.map Prod.fst).Nodup) (_hT : (T.map Prod.fst).Nodup) :
    (∀ k, ¬(k ∈ keysToInsert S T ∧ k ∈ keysToUpsert force S T)) ∧
    (∀ k, ¬(k ∈ keysToInsert S T ∧ k ∈ keysToDelete S T)) ∧
    (∀ k, ¬(k ∈ keysToUpsert force S T ∧ k ∈ keysToDelete S T)) ∧
    (∀ k, ¬(k ∈ keysToInsert S T ∧ k ∈ unchangedKeys force S T)) ∧
    (∀ k, ¬(k ∈ keysToUpsert force S T ∧ k ∈ unchangedKeys force S T)) ∧
    (∀ k, ¬(k ∈ keysToDelete S T ∧ k ∈ unchangedKeys force S T)) ∧
    (∀ k, (k ∈ keysToInsert S T ∨ k ∈ keysToUpsert force S T ∨
           k ∈ keysToDelete S T ∨ k ∈ unchangedKeys force S T) ↔
          (k ∈ S.map Prod.fst ∨ k ∈ T.map Prod.fst)) := by
  refine ⟨?_, ?_, ?_, ?_, ?_, ?_, ?_⟩
  · rintro k ⟨hi, hu⟩
    obtain ⟨⟨_, _⟩, hnone⟩ := mem_keysToInsert.mp hi
    obtain ⟨_, _, _, hsome, _⟩ := mem_keysToUpsert.mp hu
    rw [hnone] at hsome
    exact Option.noConfusion hsome
  · rintro k ⟨hi, hd⟩
    obtain ⟨⟨h, hmem⟩, _⟩ := mem_keysToInsert.mp hi
    obtain ⟨_, hnone⟩ := mem_keysToDelete.mp hd
    exact (lookupKey_eq_none_iff S k).mp hnone (k, h) hmem rfl
  · rintro k ⟨hu, hd⟩
    obtain ⟨h, _, hmem, _, _⟩ := mem_keysToUpsert.mp hu
    obtain ⟨_, hnone⟩ := mem_keysToDelete.mp hd
    exact (lookupKey_eq_none_iff S k).mp hnone (k, h) hmem rfl
  · rintro k ⟨hi, hc⟩
    obtain ⟨_, hnone⟩ := mem_keysToInsert.mp hi
    obtain ⟨_, _, hsome, _⟩ := mem_unchangedKeys.mp hc
    rw [hnone] at hsome
    exact Option.noConfusion hsome
  · rintro k ⟨hu, hc⟩
    obtain ⟨h, th, hmemu, hsome, hcond⟩ := mem_keysToUpsert.mp hu
    obtain ⟨h', hmemc, hsome', hforce⟩ := mem_unchangedKeys.mp hc
    have hhh : h = h' := by
      have e1 := lookupKey_eq_of_mem_nodup hS hmemu
      have e2 := lookupKey_eq_of_mem_nodup hS hmemc
      rw [e1] at e2
      injection e2
    rw [hsome] at hsome'
    have hth : th = h' := by injection hsome'
    rcases hcond with hf | hne
    · rw [hforce] at hf
      exact Bool.noConfusion hf
    · exact hne (by rw [hhh, hth])
  · rintro k ⟨hd, hc⟩
    obtain ⟨_, hnone⟩ := mem_keysToDelete.mp hd
    obtain ⟨h', hmemc, _, _⟩ := mem_unchangedKeys.mp hc
    exact (lookupKey_eq_none_iff S k).mp hnone (k, h') hmemc rfl
  · intro k
    constructor
    · rintro (hk | hk | hk | hk)
      · obtain ⟨⟨h, hmem⟩, _⟩ := mem_keysToInsert.mp hk
        exact Or.inl (List.mem_map.mpr ⟨(k, h), hmem, rfl⟩)
      · obtain ⟨h, _, hmem, _, _⟩ := mem_keysToUpsert.mp hk
        exact Or.inl (List.mem_map.mpr ⟨(k, h), hmem, rfl⟩)
      · obtain ⟨⟨h, hmem⟩, _⟩ := mem_keysToDelete.mp hk
        exact Or.inr (List.mem_map.mpr ⟨(k, h), hmem, rfl⟩)
      · obtain ⟨h, hmem, _, _⟩ := mem_unchangedKeys.mp hk
        exact Or.inl (List.mem_map.mpr ⟨(k, h), hmem, rfl⟩)
    · rintro (hk | hk)
      · obtain ⟨p, hmem, hpk⟩ := List.mem_map.mp hk
        have hmem' : (k, p.2) ∈ S := by
          have : p = (k, p.2) := Prod.ext hpk rfl
          rw [← this]; exact hmem
        rcases hlk : lookupKey T k with _ | th
        · exact Or.inl (mem_keysToInsert.mpr ⟨⟨p.2, hmem'⟩, hlk⟩)
        · cases hforce : force with
          | true =>
            exact Or.inr (Or.inl (mem_keysToUpsert.mpr ⟨p.2, th, hmem', hlk, Or.inl rfl⟩))
          | false =>
            by_cases hht : p.2 = th
            · refine Or.inr (Or.inr (Or.inr (mem_unchangedKeys.mpr ⟨p.2, hmem', ?_, rfl⟩)))
              rw [hlk, hht]
            · exact Or.inr (Or.inl (mem_keysToUpsert.mpr ⟨p.2, th, hmem', hlk, Or.inr hht⟩))
      · obtain ⟨p, hmem, hpk⟩ := List.mem_map.mp hk
        have hmem' : (k, p.2) ∈ T := by
          have : p = (k, p.2) := Prod.ext hpk rfl
          rw [← this]; exact hmem
        rcases hlk : lookupKey S k with _ | v
        · exact Or.inr (Or.inr (Or.inl (mem_keysToDelete.mpr ⟨⟨p.2, hmem'⟩, hlk⟩)))
        · have hmemS : (k, v) ∈ S := lookupKey_mem_of_eq_some hlk
          rcases hlkT : lookupKey T k with _ | th
          · exact Or.inl (mem_keysToInsert.mpr ⟨⟨v, hmemS⟩, hlkT⟩)
          · cases hforce : force with
            | true =>
              exact Or.inr (Or.inl (mem_keysToUpsert.mpr ⟨v, th, hmemS, hlkT, Or.inl rfl⟩))
            | false =>
              by_cases hht : v = th
              · refine Or.inr (Or.inr (Or.inr (mem_unchangedKeys.mpr ⟨v, hmemS, ?_, rfl⟩)))
                rw [hlkT, hht]
              · exact Or.inr (Or.inl (mem_keysToUpsert.mpr ⟨v, th, hmemS, hlkT, Or.inr hht⟩))

/-- Witness for `diff_classification_partition` at concrete mappings
S = {1 ↦ a, 2 ↦ b}, T = {2 ↦ old, 3 ↦ c}, force = false. -/
theorem diff_classification_partition_witness :
    (([("1", "a"), ("2", "b")].map (Prod.fst (α := String) (β := String))).Nodup) ∧
    (([("2", "old"), ("3", "c")].map (Prod.fst (α := String) (β := String))).Nodup) ∧
    ((∀ k, ¬(k ∈ keysToInsert [("1", "a"), ("2", "b")] [("2", "old"), ("3", "c")] ∧
             k ∈ keysToUpsert false [("1", "a"), ("2", "b")] [("2", "old"), ("3", "c")])) ∧
     (∀ k, ¬(k ∈ keysToInsert [("1", "a"), ("2", "b")] [("2", "old"), ("3", "c")] ∧
             k ∈ keysToDelete [("1", "a"), ("2", "b")] [("2", "old"), ("3", "c")])) ∧
     (∀ k, ¬(k ∈ keysToUpsert false [("1", "a"), ("2", "b")] [("2", "old"), ("3", "c")] ∧
             k ∈ keysToDelete [("1", "a"), ("2", "b")] [("2", "old"), ("3", "c")])) ∧
     (∀ k, ¬(k ∈ keysToInsert [("1", "a"), ("2", "b")] [("2", "old"), ("3", "c")] ∧
             k ∈ unchangedKeys false [("1", "a"), ("2", "b")] [("2", "old"), ("3", "c")])) ∧
     (∀ k, ¬(k ∈ keysToUpsert false [("1", "a"), ("2", "b")] [("2", "old"), ("3", "c")] ∧
             k ∈ unchangedKeys false [("1", "a"), ("2", "b")] [("2", "old"), ("3", "c")])) ∧
     (∀ k, ¬(k ∈ keysToDelete [("1", "a"), ("2", "b")] [("2", "old"), ("3", "c")] ∧
             k ∈ unchangedKeys false [("1", "a"), ("2", "b")] [("2", "old"), ("3", "c")])) ∧
     (∀ k, (k ∈ keysToInsert [("1", "a"), ("2", "b")] [("2", "old"), ("3", "c")] ∨
            k ∈ keysToUpsert false [("1", "a"), ("2", "b")] [("2", "old"), ("3", "c")] ∨
            k ∈ keysToDelete [("1", "a"), ("2", "b")] [("2", "old"), ("3", "c")] ∨
            k ∈ unchangedKeys false [("1", "a"), ("2", "b")] [("2", "old"), ("3", "c")]) ↔
           (k ∈ [("1", "a"), ("2", "b")].map Prod.fst ∨
            k ∈ [("2", "old"), ("3", "c")].map Prod.fst))) :=
  ⟨by decide, by decide,
    diff_classification_partition false [("1", "a"), ("2", "b")] [("2", "old"), ("3", "c")]
      (by decide) (by decide)⟩

/-- C1 counterexample: in the spec's scenario (source rows {(1,a), (2,b)},
target rows {(2,old), (3,c)}), the target fingerprint query is restricted
to the source's key set, so key 3 is never read: ToDelete is empty, not
{3}, and after commit the target still holds row (3, c), so the target
does not equal the source. -/
theorem scenario_row3_not_deleted :
    keysToDelete (sourceFingerprints [("1", "a"), ("2", "b")])
        (targetFingerprints [("2", "old"), ("3", "c")]
          ((sourceFingerprints [("1", "a"), ("2", "b")]).map Prod.fst)) = [] ∧
    (runSync (fun _ => true) [("1", "a"), ("2", "b")] [("2", "old"), ("3", "c")]
        false false).final = [("2", "b"), ("3", "c"), ("1", "a")] ∧
    lookupKey (runSync (fun _ => true) [("1", "a"), ("2", "b")] [("2", "old"), ("3", "c")]
        false false).final "3" = some "c" := by
  decide

/-- C1 amended: in the spec's scenario the computed diff is ToInsert = {1},
ToUpsert = {2} and ToDelete = {} (key 3 is never read because the target
fingerprint query is restricted to the source's key set), and after
commit the target's rows for keys 1 and 2 equal the source's rows while
the target-only row (3, c) remains untouched. -/
theorem scenario_insert_upsert_keep_unseen :
    keysToInsert (sourceFingerprints [("1", "a"), ("2", "b")])
        (targetFingerprints [("2", "old"), ("3", "c")]
          ((sourceFingerprints [("1", "a"), ("2", "b")]).map Prod.fst)) = ["1"] ∧
    keysToUpsert false (sourceFingerprints [("1", "a"), ("2", "b")])
        (targetFingerprints [("2", "old"), ("3", "c")]
          ((sourceFingerprints [("1", "a"), ("2", "b")]).map Prod.fst)) = ["2"] ∧
    keysToDelete (sourceFingerprints [("1", "a"), ("2", "b")])
        (targetFingerprints [("2", "old"), ("3", "c")]
          ((sourceFingerprints [("1", "a"), ("2", "b")]).map Prod.fst)) = [] ∧
    lookupKey (runSync (fun _ => true) [("1", "a"), ("2", "b")] [("2", "old"), ("3", "c")]
        false false).final "1" = some "a" ∧
    lookupKey (runSync (fun _ => true) [("1", "a"), ("2", "b")] [("2", "old"), ("3", "c")]
        false false).final "2" = some "b" ∧
    lookupKey (runSync (fun _ => true) [("1", "a"), ("2", "b")] [("2", "old"), ("3", "c")]
        false false).final "3" = some "c" := by
  decide

/-- C3 counterexample: a run against an empty source (source fingerprint
mapping empty, target holding row (3, c)) returns early with success and
deletes nothing — the target row survives, it does not become ToDelete. -/
theorem empty_source_deletes_nothing :
    runSync (fun _ => true) [] [("3", "c")] false false = .ok [("3", "c")] ∧
    lookupKey (runSync (fun _ => true) [] [("3", "c")] false false).final "3"
      = some "c" := by
  decide

/-- C3 amended: the diff computation in isolation does mark every target
key ToDelete when the source mapping is empty, but the run itself returns
early (main.go lines 161-166) before the target is even queried, so an
empty source mutates nothing; symmetrically, when the target mapping is
empty every source key becomes ToInsert. -/
theorem empty_side_diff_and_run :
    (∀ (T : List (String × String)), keysToDelete [] T = T.map Prod.fst) ∧
    (∀ (execOk : String → Bool) (tgt : TableState) (dryRun force : Bool),
      runSync execOk [] tgt dryRun force = .ok tgt) ∧
    (∀ (S : List (String × String)), keysToInsert S [] = S.map Prod.fst) := by
  refine ⟨keysToDelete_empty_source, ?_, keysToInsert_empty_target⟩
  intro execOk tgt dryRun force
  rfl

theorem applyDeletes_dryRun_final (execOk : String → Bool) (origTgt : TableState)
    (dels : List String) : ∀ buf,
    ((applyDeletes execOk origTgt true dels buf).1).final = origTgt := by
  induction dels with
  | nil => intro buf; simp [applyDeletes, RunOutcome.final]
  | cons k dels ih =>
    intro buf
    by_cases h : execOk k
    · simp only [applyDeletes, h, if_pos]
      exact ih (deleteRow buf k)
    · simp [applyDeletes, h, RunOutcome.final]

theorem applyUpserts_dryRun_final (execOk : String → Bool)
    (srcTbl origTgt : TableState) (dels : List String) (insUps : List String) :
    ∀ buf, ((applyUpserts execOk srcTbl origTgt true dels insUps buf).1).final = origTgt := by
  induction insUps with
  | nil => intro buf; exact applyDeletes_dryRun_final execOk origTgt dels buf
  | cons k insUps ih =>
    intro buf
    rcases hlk : lookupKey srcTbl k with _ | v
    · simp [applyUpserts, hlk, RunOutcome.final]
    · by_cases h : execOk k
      · simp only [applyUpserts, hlk, h, if_pos]
        exact ih (upsertRow buf k v)
      · simp [applyUpserts, hlk, h, RunOutcome.final]

/-- C8: with the dry-run flag set, the run applies every upsert and delete
inside the transaction and then rolls back unconditionally, so the final
target state — and hence the content hash of every key — equals its
pre-run value, whatever the diff was and even when statements failed. -/
theorem dryRun_preserves_target (execOk : String → Bool)
    (srcTbl tgtTbl : TableState) (force : Bool) :
    (runSync execOk srcTbl tgtTbl true force).final = tgtTbl ∧
    (∀ k, lookupKey (runSync execOk srcTbl tgtTbl true force).final k
          = lookupKey tgtTbl k) := by
  have hfin : (runSync execOk srcTbl tgtTbl true force).final = tgtTbl := by
    unfold runSync
    by_cases hS : (sourceFingerprints srcTbl).isEmpty
    · simp [hS, RunOutcome.final]
    · simp only [hS, Bool.false_eq_true, if_neg, not_false_iff]
      exact applyUpserts_dryRun_final _ _ _ _ _ _
  exact ⟨hfin, fun k => by rw [hfin]⟩

theorem applyDeletes_err_rollback (execOk : String → Bool) (origTgt : TableState)
    (dryRun : Bool) (dels : List String) : ∀ buf m fin,
    (applyDeletes execOk origTgt dryRun dels buf).1 = .err m fin → fin = origTgt := by
  induction dels with
  | nil =>
    intro buf m fin h
    by_cases hd : dryRun <;> simp [applyDeletes, hd] at h
  | cons k dels ih =>
    intro buf m fin h
    by_cases hk : execOk k
    · simp only [applyDeletes, hk, if_pos] at h
      exact ih (deleteRow buf k) m fin h
    · simp only [applyDeletes, hk, Bool.false_eq_true, if_neg, not_false_iff] at h
      injection h with _ h2
      exact h2.symm

theorem applyUpserts_err_rollback (execOk : String → Bool)
    (srcTbl origTgt : TableState) (dryRun : Bool) (dels : List String)
    (insUps : List String) : ∀ buf m fin,
    (applyUpserts execOk srcTbl origTgt dryRun dels insUps buf).1 = .err m fin →
      fin = origTgt := by
  induction insUps with
  | nil =>
    intro buf m fin h
    exact applyDeletes_err_rollback execOk origTgt dryRun dels buf m fin h
  | cons k insUps ih =>
    intro buf m fin h
    rcases hlk : lookupKey srcTbl k with _ | v
    · simp only [applyUpserts, hlk] at h
      injection h with _ h2
      exact h2.symm
    · by_cases hk : execOk k
      · simp only [applyUpserts, hlk, hk, if_pos] at h
        exact ih (upsertRow buf k v) m fin h
      · simp only [applyUpserts, hlk, hk, Bool.false_eq_true, if_neg,
          not_false_iff] at h
        injection h with _ h2
        exact h2.symm

/-- C9: whenever the run ends in an error after the target transaction has
begun — a failed materialization, upsert or delete — the transaction is
rolled back and the final target state equals the pre-run state: no
subset of the patch is committed. -/
theorem error_exit_rolls_back (execOk : String → Bool)
    (srcTbl tgtTbl : TableState) (dryRun force : Bool) (m : String)
    (fin : TableState)
    (h : runSync execOk srcTbl tgtTbl dryRun force = .err m fin) : fin = tgtTbl := by
  unfold runSync at h
  by_cases hS : (sourceFingerprints srcTbl).isEmpty
  · simp [hS] at h
  · simp only [hS, Bool.false_eq_true, if_neg, not_false_iff] at h
    exact applyUpserts_err_rollback _ _ _ _ _ _ _ _ _ h

/-- Witness for `error_exit_rolls_back`: with every statement failing,
syncing source {1 ↦ a} into target {9 ↦ z} errors on the first upsert and
leaves the target untouched. -/
theorem error_exit_rolls_back_witness :
    runSync (fun _ => false) [("1", "a")] [("9", "z")] false false
      = .err "error upserting row into target" [("9", "z")] ∧
    ([("9", "z")] : TableState) = [("9", "z")] :=
  ⟨by decide,
    error_exit_rolls_back (fun _ => false) [("1", "a")] [("9", "z")] false false
      "error upserting row into target" [("9", "z")] (by decide)⟩

/-- C6: for a table whose primary-key column list is empty, the run fails
with the no-primary-key error (main.go lines 85-87) before any operation
is issued against the target connection, and the target state is
unchanged. -/
theorem no_primary_key_fails_fast (execOk : String → Bool)
    (srcTbl tgtTbl : TableState) (dryRun force : Bool) :
    runTableSame [] execOk srcTbl tgtTbl dryRun force
      = (some "table has no primary key", [], tgtTbl) := by
  rfl

/-- Embedding of the argument collection for the target query (main.go
lines 188-191): only the FIRST component of each source key tuple is
appended to the single query argument `$1`. -/
def firstComponents (srcKeyTuples : List (List String)) : List String :=
  srcKeyTuples.filterMap List.head?

/-- Embedding of the row condition of the target fingerprint query
(main.go lines 168-176): the WHERE clause conjoins, for every primary-key
column, the clause `col = ANY($1)` against the one array `$1` of
collected first components, so a target row passes iff each of its key
components individually occurs among the first components of the source
keys. -/
def targetRestriction (srcKeyTuples : List (List String)) (rowKey : List String) : Bool :=
  rowKey.all (fun v => (firstComponents srcKeyTuples).contains v)

/-- C2: for a composite two-column primary key, with the source key set
{(1, 2)}, the code's target restriction rejects the target row whose full
key tuple (1, 2) IS in the source key set, and accepts the row (1, 1)
whose tuple is NOT — the query restricts each key column independently to
the set of first components instead of restricting the full tuple, so
composite-key reconciliation is not correct as the claim (and the spec's
stated intent) requires. -/
theorem composite_key_restriction_bug :
    (["1", "2"] ∈ [["1", "2"]]) ∧
    targetRestriction [["1", "2"]] ["1", "2"] = false ∧
    (["1", "1"] ∉ [["1", "2"]]) ∧
    targetRestriction [["1", "2"]] ["1", "1"] = true := by
  decide

/-- The configured exclusion set of `makeTableSame` (main.go line 98). -/
def skipColumns : List String := ["search_vector"]

/-- Embedding of the exclusion filter of `makeTableSame` (main.go lines
99-104): the column list with the skip set removed. -/
def filteredColNames (colNames : List String) : List String :=
  colNames.filter (fun c => !(skipColumns.contains c))

/-- The serialized complete row, standing for the `row_to_json(t)::text`
expression of the fingerprint queries (main.go lines 113-116 and 174-176),
which ranges over every column of the row alias `t`, excluded columns
included. -/
def rowToJson (row : List (String × String)) : String :=
  String.intercalate "," (row.map (fun p => p.1 ++ ":" ++ p.2))

/-- The content hash of a row: md5 of the serialized complete row, the
digest modelled as the serialization itself (deterministic, collisions
out of scope per the spec). -/
def rowHashFull (row : List (String × String)) : String := rowToJson row

/-- Embedding of row materialization (main.go lines 288-302): the re-read
of a changed row selects `selectCols`, i.e. only the filtered
(non-excluded) columns. -/
def materializeRow (colNames : List String) (row : List (String × String)) :
    List (Option String) :=
  (filteredColNames colNames).map (fun c => lookupKey row c)

/-- The column list of the upsert statement (main.go lines 265-282): both
the insert column list and the DO UPDATE SET column list are built from
the filtered column list. -/
def upsertColumnList (colNames : List String) : List String :=
  filteredColNames colNames

/-- C7: an excluded column never appears among the materialized (read)
columns nor in the upsert statement's column list, while the content hash
is computed over the complete row — so two rows identical on every
non-excluded column can still differ in hash solely because of the
excluded column's value. -/
theorem excluded_column_asymmetry :
    (∀ colNames, "search_vector" ∉ filteredColNames colNames) ∧
    (∀ colNames, "search_vector" ∉ upsertColumnList colNames) ∧
    (materializeRow ["id", "search_vector"] [("id", "1"), ("search_vector", "x")]
      = materializeRow ["id", "search_vector"] [("id", "1"), ("search_vector", "y")] ∧
     rowHashFull [("id", "1"), ("search_vector", "x")]
      ≠ rowHashFull [("id", "1"), ("search_vector", "y")]) := by
  refine ⟨?_, ?_, by decide, by decide⟩
  · intro colNames h
    have := (List.mem_filter.mp h).2
    simp [skipColumns] at this
  · intro colNames h
    have := (List.mem_filter.mp h).2
    simp [skipColumns] at this

/-- Embedding of the Go expression `strings.Trim(identifier, quote)` in
`quoteIdentifier` (main.go line 438): strip every leading and trailing
double-quote character. -/
def trimQuotes (s : List Char) : List Char :=
  ((s.dropWhile (fun c => c == '"')).reverse.dropWhile (fun c => c == '"')).reverse

/-- Embedding of `strings.ReplaceAll(identifier, quote, quotequote)` in
`quoteIdentifier` (main.go line 439): double every embedded double-quote
character. -/
def escapeQuotes (s : List Char) : List Char :=
  s.flatMap (fun c => if c == '"' then ['"', '"'] else [c])

/-- Embedding of `quoteIdentifier` (main.go lines 437-440): trim
surrounding double quotes, double embedded ones, and wrap the result in
double quotes. -/
def quoteIdentifier (s : List Char) : List Char :=
  ('"' :: escapeQuotes (trimQuotes s)) ++ ['"']

theorem dropWhile_quote_eq_self {s : List Char} (h : ∀ c ∈ s, c ≠ '"') :
    s.dropWhile (fun c => c == '"') = s := by
  cases s with
  | nil => rfl
  | cons c t =>
    have hc : (c == '"') = false := by
      simp only [beq_eq_false_iff_ne]
      exact h c (List.mem_cons_self c t)
    simp [List.dropWhile_cons, hc]

theorem trimQuotes_eq_self {s : List Char} (h : ∀ c ∈ s, c ≠ '"') :
    trimQuotes s = s := by
  unfold trimQuotes
  rw [dropWhile_quote_eq_self h,
    dropWhile_quote_eq_self (fun c hc => h c (List.mem_reverse.mp hc)),
    List.reverse_reverse]

theorem escapeQuotes_eq_self {s : List Char} (h : ∀ c ∈ s, c ≠ '"') :
    escapeQuotes s = s := by
  induction s with
  | nil => rfl
  | cons c t ih =>
    have hc : ¬((c == '"') = true) := by
      simp only [beq_iff_eq]
      exact h c (List.mem_cons_self c t)
    have ht := ih (fun x hx => h x (List.mem_cons_of_mem c hx))
    unfold escapeQuotes at ht ⊢
    rw [List.flatMap_cons, if_neg hc, List.singleton_append, ht]

theorem trimQuotes_wrap {s : List Char} (h : ∀ c ∈ s, c ≠ '"') :
    trimQuotes (('"' :: s) ++ ['"']) = s := by
  cases s with
  | nil => rfl
  | cons a t =>
    have ha : (a == '"') = false := by
      simp only [beq_eq_false_iff_ne]
      exact h a (List.mem_cons_self a t)
    have h1 : (('"' :: a :: t) ++ ['"']).dropWhile (fun c => c == '"')
        = (a :: t) ++ ['"'] := by
      simp [List.dropWhile_cons, ha]
    unfold trimQuotes
    rw [h1]
    have h2 : ((a :: t) ++ ['"']).reverse = '"' :: (a :: t).reverse := by
      simp
    rw [h2]
    have h3 : ((a :: t).reverse).dropWhile (fun c => c == '"') = (a :: t).reverse :=
      dropWhile_quote_eq_self (fun c hc => h c (List.mem_reverse.mp hc))
    have h4 : List.dropWhile (fun c => c == '"') ('"' :: (a :: t).reverse)
        = List.dropWhile (fun c => c == '"') ((a :: t).reverse) := by
      rw [List.dropWhile_cons]
      simp
    rw [h4, h3, List.reverse_reverse]

/-- C10: for every identifier containing no double-quote character,
`quoteIdentifier` is idempotent — quoting an already-quoted name strips
the surrounding quotes it previously added before re-quoting, which is
what `makeTableSame` relies on when `joinIdentifiers` has already
overwritten the primary-key column names in place with quoted names
(main.go line 110) and those quoted names are quoted again when the
target WHERE clause and upsert statement are built (lines 170, 272, 292,
315, 408). -/
theorem quoteIdentifier_idempotent (s : List Char) (h : '"' ∉ s) :
    quoteIdentifier (quoteIdentifier s) = quoteIdentifier s := by
  have h' : ∀ c ∈ s, c ≠ '"' := fun c hc e => h (e ▸ hc)
  have e1 : quoteIdentifier s = ('"' :: s) ++ ['"'] := by
    unfold quoteIdentifier
    rw [trimQuotes_eq_self h', escapeQuotes_eq_self h']
  rw [e1]
  show quoteIdentifier (('"' :: s) ++ ['"']) = ('"' :: s) ++ ['"']
  unfold quoteIdentifier
  rw [trimQuotes_wrap h', escapeQuotes_eq_self h']

/-- Witness for `quoteIdentifier_idempotent` at the identifier `id`. -/
theorem quoteIdentifier_idempotent_witness :
    ('"' ∉ (['i', 'd'] : List Char)) ∧
    quoteIdentifier (quoteIdentifier ['i', 'd']) = quoteIdentifier ['i', 'd'] :=
  ⟨by decide, quoteIdentifier_idempotent ['i', 'd'] (by decide)⟩

/-- The key separator `::` hardcoded by `makeKey` and `splitKey`
(main.go lines 418 and 422). -/
def sepChars : List Char := [':', ':']

/-- Index of the first occurrence of `sep` in `s`, the scanning behavior
underlying Go `strings.Split`. -/
def firstOcc (sep : List Char) (s : List Char) : Option Nat :=
  if sep.isPrefixOf s then some 0
  else
    match s with
    | [] => none
    | _ :: t => (firstOcc sep t).map (· + 1)

/-- Embedding of `makeKey` (main.go lines 413-419): the key values
(already rendered as strings) joined with the separator, i.e.
`strings.Join(parts, sep)`. -/
def makeKey (parts : List (List Char)) : List Char :=
  match parts with
  | [] => []
  | [x] => x
  | x :: rest => x ++ sepChars ++ makeKey rest

/-- Split on the separator by repeatedly cutting at its first occurrence,
the behavior of `strings.Split(key, sep)`; fuel-indexed (each cut
consumes at least two characters, so `key.length` fuel always
suffices). -/
def splitOnSepAux : Nat → List Char → List (List Char)
  | 0, s => [s]
  | fuel + 1, s =>
    match firstOcc sepChars s with
    | none => [s]
    | some i => s.take i :: splitOnSepAux fuel (s.drop (i + 2))

/-- Embedding of `splitKey` (main.go lines 421-428):
`strings.Split(key, sep)`. -/
def splitKey (key : List Char) : List (List Char) :=
  splitOnSepAux key.length key

/-- C4 counterexample: the tuples ("a::b") and ("a", "b") are different
logical rows but encode to the same composite key, and splitting the
one-element tuple's key does not recover it — the separator is not
unambiguous when a key value contains it. -/
theorem makeKey_not_injective :
    makeKey [['a', ':', ':', 'b']] = makeKey [['a'], ['b']] ∧
    ([['a', ':', ':', 'b']] : List (List Char)) ≠ [['a'], ['b']] ∧
    splitKey (makeKey [['a', ':', ':', 'b']]) = [['a'], ['b']] := by
  decide

theorem firstOcc_none_of_no_colon {s : List Char} (h : ∀ c ∈ s, c ≠ ':') :
    firstOcc sepChars s = none := by
  induction s with
  | nil => rfl
  | cons c t ih =>
    have hc : ¬(sepChars.isPrefixOf (c :: t) = true) := by
      simp only [sepChars, List.isPrefixOf, Bool.and_eq_true, beq_iff_eq]
      rintro ⟨hcc, -⟩
      exact h c (List.mem_cons_self c t) hcc.symm
    have ht := ih (fun x hx => h x (List.mem_cons_of_mem c hx))
    unfold firstOcc
    rw [if_neg hc]
    simp [ht]

theorem firstOcc_at_sep {x : List Char} (h : ∀ c ∈ x, c ≠ ':') (t : List Char) :
    firstOcc sepChars (x ++ ':' :: ':' :: t) = some x.length := by
  induction x with
  | nil =>
    have hp : sepChars.isPrefixOf ([] ++ ':' :: ':' :: t) = true := by
      simp [sepChars, List.isPrefixOf]
    unfold firstOcc
    rw [if_pos hp]
    simp
  | cons c xs ih =>
    have hc : ¬(sepChars.isPrefixOf ((c :: xs) ++ ':' :: ':' :: t) = true) := by
      simp only [sepChars, List.cons_append, List.isPrefixOf, Bool.and_eq_true,
        beq_iff_eq]
      rintro ⟨hcc, -⟩
      exact h c (List.mem_cons_self c xs) hcc.symm
    have ht := ih (fun x hx => h x (List.mem_cons_of_mem c hx))
    unfold firstOcc
    rw [if_neg hc]
    simp only [List.cons_append]
    rw [ht]
    simp [List.length_cons]

theorem splitOnSepAux_succ_none {f : Nat} {s : List Char}
    (h : firstOcc sepChars s = none) : splitOnSepAux (f + 1) s = [s] := by
  unfold splitOnSepAux
  rw [h]

theorem splitOnSepAux_succ_some {f i : Nat} {s : List Char}
    (h : firstOcc sepChars s = some i) :
    splitOnSepAux (f + 1) s = s.take i :: splitOnSepAux f (s.drop (i + 2)) := by
  simp only [splitOnSepAux, h]

theorem splitOnSepAux_makeKey :
    ∀ parts : List (List Char), parts ≠ [] →
      (∀ p ∈ parts, ∀ c ∈ p, c ≠ ':') →
      ∀ fuel, (makeKey parts).length ≤ fuel →
        splitOnSepAux fuel (makeKey parts) = parts := by
  intro parts
  induction parts with
  | nil => intro hne; exact absurd rfl hne
  | cons x rest ih =>
    intro _ hfree fuel hfuel
    cases rest with
    | nil =>
      have hx : firstOcc sepChars (makeKey [x]) = none :=
        firstOcc_none_of_no_colon (hfree x (List.mem_cons_self x []))
      cases fuel with
      | zero => rfl
      | succ f =>
        rw [splitOnSepAux_succ_none hx]
        simp [makeKey]
    | cons r rs =>
      have hkey : makeKey (x :: r :: rs) = x ++ ':' :: ':' :: makeKey (r :: rs) := by
        simp [makeKey, sepChars]
      have hlen : (makeKey (x :: r :: rs)).length
          = x.length + 2 + (makeKey (r :: rs)).length := by
        rw [hkey]
        simp only [List.length_append, List.length_cons]
        omega
      cases fuel with
      | zero =>
        rw [hlen] at hfuel
        omega
      | succ f =>
        have hocc : firstOcc sepChars (makeKey (x :: r :: rs)) = some x.length := by
          rw [hkey]
          exact firstOcc_at_sep (hfree x (List.mem_cons_self x (r :: rs))) _
        rw [splitOnSepAux_succ_some hocc]
        have htake : (makeKey (x :: r :: rs)).take x.length = x := by
          rw [hkey]
          exact List.take_left x (':' :: ':' :: makeKey (r :: rs))
        have hdrop : (makeKey (x :: r :: rs)).drop (x.length + 2) = makeKey (r :: rs) := by
          rw [hkey]
          have : x ++ ':' :: ':' :: makeKey (r :: rs)
              = (x ++ [':', ':']) ++ makeKey (r :: rs) := by
            simp
          rw [this]
          have hl : (x ++ [':', ':']).length = x.length + 2 := by
            simp
          rw [← hl]
          exact List.drop_left (x ++ [':', ':']) (makeKey (r :: rs))
        rw [htake, hdrop]
        have hrest := ih (by simp) (fun p hp => hfree p (List.mem_cons_of_mem x hp)) f
          (by rw [hlen] at hfuel; omega)
        rw [hrest]

/-- C4 amended: restricted to nonempty tuples of key values whose
rendered strings contain no separator character, the encoding is a
bijection on logical rows — splitting an encoded key recovers exactly the
original ordered tuple, and two such tuples are equal iff their encoded
keys are equal.  (Without the restriction the claim fails, see the
counterexample: a value containing the separator collides with a split
tuple.) -/
theorem splitKey_makeKey_roundtrip (parts : List (List Char))
    (hne : parts ≠ []) (hfree : ∀ p ∈ parts, ∀ c ∈ p, c ≠ ':') :
    splitKey (makeKey parts) = parts ∧
    ∀ parts2 : List (List Char), parts2 ≠ [] →
      (∀ p ∈ parts2, ∀ c ∈ p, c ≠ ':') →
      (makeKey parts = makeKey parts2 ↔ parts = parts2) := by
  have hrt : splitKey (makeKey parts) = parts :=
    splitOnSepAux_makeKey parts hne hfree (makeKey parts).length le_rfl
  refine ⟨hrt, ?_⟩
  intro parts2 hne2 hfree2
  constructor
  · intro hmk
    have hrt2 : splitKey (makeKey parts2) = parts2 :=
      splitOnSepAux_makeKey parts2 hne2 hfree2 (makeKey parts2).length le_rfl
    rw [← hrt, ← hrt2, hmk]
  · intro hp
    rw [hp]

/-- Witness for `splitKey_makeKey_roundtrip` at the tuple ("a", "b"). -/
theorem splitKey_makeKey_roundtrip_witness :
    (([['a'], ['b']] : List (List Char)) ≠ []) ∧
    (∀ p ∈ ([['a'], ['b']] : List (List Char)), ∀ c ∈ p, c ≠ ':') ∧
    (splitKey (makeKey [['a'], ['b']]) = [['a'], ['b']] ∧
     ∀ parts2 : List (List Char), parts2 ≠ [] →
       (∀ p ∈ parts2, ∀ c ∈ p, c ≠ ':') →
       (makeKey [['a'], ['b']] = makeKey parts2 ↔ [['a'], ['b']] = parts2)) :=
  ⟨by decide, by decide,
    splitKey_makeKey_roundtrip [['a'], ['b']] (by decide) (by decide)⟩

end Pig
